import Mathlib

/-!
Verification of the doi-finder pipeline (src/doi_finder.py).

The development is a shallow embedding of the script: file contents are
lists of lines (lists of characters), the CrossRef query is an oracle
function from a citation to an optional DOI, wall-clock time is a rational
number, pandas data frames are column lists plus rows mapping column names
to optional cell values, and Python exceptions (ZeroDivisionError, lookup
failures) are Except or Option values.
-/

namespace DoiFinder

/-- Record: one persisted row, built by process_citations_file
(src/doi_finder.py lines 90-94) with the fields citation, doi, doi_url. -/
structure Record where
  citation : String
  doi : String
  doi_url : String
deriving DecidableEq

/-! ### Result merger: DOIFinder.remove_duplicate_dois (lines 102-112) -/

/-- Loop of remove_duplicate_dois: walk the results, keep a record only when
its doi value is not in the seen_dois set (modelled as a list of strings). -/
def removeDupAux (seen : List String) : List Record → List Record
  | [] => []
  | r :: rs =>
    if r.doi ∈ seen then removeDupAux seen rs
    else r :: removeDupAux (r.doi :: seen) rs

/-- DOIFinder.remove_duplicate_dois: stable dedup of records by the literal
doi field, first occurrence kept (lines 102-112). -/
def remove_duplicate_dois (results : List Record) : List Record :=
  removeDupAux [] results

/-! ### Normalizer: the preprocessing in process_citations_file (lines 74-81) -/

/-- Whitespace stripped by Python str.strip, on the ASCII range. -/
def pySpace (c : Char) : Bool :=
  c = ' ' || c = '\t' || c = '\n' || c = '\r' || c = '\x0b' || c = '\x0c'

/-- Left part of str.strip. -/
def lstrip (l : List Char) : List Char := l.dropWhile pySpace

/-- Right part of str.strip. -/
def rstrip (l : List Char) : List Char := (l.reverse.dropWhile pySpace).reverse

/-- Python str.strip on a line: drop leading and trailing whitespace. -/
def pyStrip (l : List Char) : List Char := rstrip (lstrip l)

/-- Suffix of the line starting at the first character matched by the regex
[a-zA-Z]; none when re.search finds no match.  Char.isAlpha is exactly the
a-z, A-Z test of the regex. -/
def dropToAlpha : List Char → Option (List Char)
  | [] => none
  | c :: cs => if c.isAlpha then some (c :: cs) else dropToAlpha cs

/-- Normalization applied to an already stripped line (lines 78-81):
citations[i] = citations[i][match.start():].strip() when the regex matches,
the line left as is otherwise. -/
def normalizeStripped (c : List Char) : List Char :=
  match dropToAlpha c with
  | some s => pyStrip s
  | none => c

/-- Reading of the citations file (lines 74-81): strip every line, drop the
blank ones, then strip the leading non-alphabetic noise from each. -/
def readCitations (lines : List (List Char)) : List (List Char) :=
  ((lines.map pyStrip).filter (fun l => l ≠ [])).map normalizeStripped

/-- Normalizer as the specification words it, acting on the raw line: locate
the first alphabetic character, return the substring starting there trimmed
of surrounding whitespace; with no alphabetic character the line passes
through trimmed.  Stated from the spec for comparison with readCitations. -/
def normSpec (raw : List Char) : List Char :=
  match dropToAlpha raw with
  | some s => pyStrip s
  | none => pyStrip raw

/-! ### Lookup client: DOIFinder.find_doi (lines 58-70) -/

/-- DOIFinder.find_doi: the CrossRef query is an oracle; some doi is the
successful indexing of the top hit, none is any raised exception (network
failure, malformed response, empty item list), absorbed by the bare except
into the (citation, Not Found, CrossRef) return (lines 62-70). -/
def find_doi (lookup : String → Option String) (citation : String) :
    String × String × String :=
  match lookup citation with
  | some doi => (citation, doi, "CrossRef")
  | none => (citation, "Not Found", "CrossRef")

/-- Record built for one citation in the loop of process_citations_file
(lines 90-94).  Python truthiness of the doi string is the test against the
empty string, so the sentinel "Not Found" takes the truthy branch. -/
def process_citation (lookup : String → Option String) (citation : String) :
    Record :=
  let t := find_doi lookup citation
  { citation := t.1
  , doi := if t.2.1 ≠ "" then t.2.1 else ""
  , doi_url := if t.2.1 ≠ "" then "https://doi.org/" ++ t.2.1 else "" }

/-- DOIFinder.process_citations_file (lines 72-100): read and normalize the
lines, then build one record per citation via find_doi. -/
def process_citations_file (lookup : String → Option String)
    (lines : List (List Char)) : List Record :=
  (readCitations lines).map (fun cs => process_citation lookup (String.mk cs))

/-! ### Request pacing: DOIFinder.rate_limit (lines 49-55) and the timing of
the batch loop.  Wall-clock time is a rational; a lookup itself is modelled
as instantaneous, so only the deliberate sleeps advance the clock. -/

/-- State of the DOIFinder object relevant to pacing: request_delay (1.0)
and last_request_time (initially 0), lines 46-47. -/
structure FinderState where
  request_delay : ℚ
  last_request_time : ℚ
deriving DecidableEq

/-- DOIFinder.rate_limit (lines 49-55): given the current time, sleep the
remainder of the interval when needed and stamp last_request_time with the
time after the sleep.  Returns the new state and the new clock. -/
def rate_limit (st : FinderState) (now : ℚ) : FinderState × ℚ :=
  let elapsed := now - st.last_request_time
  let now2 :=
    if elapsed < st.request_delay then now + (st.request_delay - elapsed)
    else now
  ({ st with last_request_time := now2 }, now2)

/-- find_doi with its timing made explicit.  The body of find_doi (lines
58-70) performs no call to rate_limit and no sleep: the query is issued at
the current clock, the finder state and the clock are returned unchanged.
The last component is the trace of issued queries with their timestamps. -/
def find_doi_timed (lookup : String → Option String) (st : FinderState)
    (now : ℚ) (citation : String) :
    (String × String × String) × FinderState × ℚ × List (ℚ × String) :=
  (find_doi lookup citation, st, now, [(now, citation)])

/-- Timing of the loop of process_citations_file (lines 86-98): one find_doi
per citation, then time.sleep(0.5) between citations (after every citation
but the last).  Returns the query trace, the final finder state and clock. -/
def process_citations_timed (lookup : String → Option String) :
    FinderState → ℚ → List String → List (ℚ × String) × FinderState × ℚ
  | st, now, [] => ([], st, now)
  | st, now, c :: rest =>
    let r := find_doi_timed lookup st now c
    match rest with
    | [] => (r.2.2.2, r.2.1, r.2.2.1)
    | c2 :: rest2 =>
      let out := process_citations_timed lookup r.2.1 (r.2.2.1 + 1 / 2) (c2 :: rest2)
      (r.2.2.2 ++ out.1, out.2.1, out.2.2)

/-- Query times spaced by a fixed gap, as the amended pacing claim words it:
first query at t0, each next one gap later. -/
def evenlySpaced (t0 gap : ℚ) : List String → List (ℚ × String)
  | [] => []
  | c :: rest => (t0, c) :: evenlySpaced (t0 + gap) gap rest

/-! ### Persistence writer: DOIFinder.save_results (lines 114-171) -/

/-- Python str.isprintable on the ASCII range: space through tilde. -/
def pyPrintable (c : Char) : Bool := 32 ≤ c.toNat && c.toNat ≤ 126

/-- Sanitization of a record (lines 117-118): keep only printable characters
of the citation field. -/
def sanitizeRecord (r : Record) : Record :=
  { r with citation := String.mk (r.citation.toList.filter pyPrintable) }

/-- Count of records whose doi is not the sentinel (line 159). -/
def found_count (results : List Record) : Nat :=
  (results.filter (fun r => r.doi ≠ "Not Found")).length

/-- Python division: raises ZeroDivisionError on a zero denominator. -/
def pyDiv (a b : ℚ) : Except Unit ℚ :=
  if b = 0 then Except.error () else Except.ok (a / b)

/-- Success rate printed by the summary (line 163): found_count divided by
the length of the results, times 100; an error is the ZeroDivisionError. -/
def success_rate (results : List Record) : Except Unit ℚ :=
  (pyDiv (found_count results : ℚ) (results.length : ℚ)).map (fun q => q * 100)

/-- Outcome of save_results when no spreadsheet exists yet at the target:
both files receive the sanitized records, and the summary computation may
raise (the spreadsheet-merging branch is modelled separately below). -/
structure SaveOutcome where
  excel_written : List Record
  csv_written : List Record
  summary : Except Unit Unit

/-- DOIFinder.save_results (lines 114-171) on a fresh target: sanitize, write
both files, then print the summary; with check_duplicates false the summary
evaluates found_count / len(results), which raises on an empty list after
the files are already written. -/
def save_results_outcome (results : List Record) (check_duplicates : Bool) :
    SaveOutcome :=
  let sanitized := results.map sanitizeRecord
  { excel_written := sanitized
  , csv_written := sanitized
  , summary :=
      if check_duplicates then Except.ok ()
      else (success_rate results).map (fun _ => ()) }

/-! ### Spreadsheet merge of save_results (lines 123-139): pandas frames.
A frame is a list of column names (the doi key kept apart) plus rows; a row
maps column names to optional cells, none standing for a missing value
(NaN).  Cells outside the column list are never read by the pipeline. -/

/-- Row of a data frame: the doi key and the cells of the other columns. -/
structure DRow where
  doi : String
  cells : String → Option String

/-- Data frame: non-key column names and rows. -/
structure DFrame where
  cols : List String
  rows : List DRow

/-- Cells built from an association list of column name and value pairs. -/
def cellsOf (l : List (String × Option String)) (c : String) : Option String :=
  match l.find? (fun p => p.1 == c) with
  | some p => p.2
  | none => none

/-- Suffix resolution of pd.merge with suffixes ('', '_new'): a right column
also present on the left gets the _new suffix, others keep their name. -/
def renameCol (leftCols : List String) (c : String) : String :=
  if c ∈ leftCols then c ++ "_new" else c

/-- Cells of one merged row: left columns carry the left values, right
columns (renamed where shared) carry the right values. -/
def mergedCells (E N : DFrame) (ev nv : String → Option String) :
    String → Option String :=
  cellsOf (E.cols.map (fun c => (c, ev c)) ++
    N.cols.map (fun c => (renameCol E.cols c, nv c)))

/-- pd.merge(existing_df, new_df, on='doi', how='outer', suffixes=('', '_new'))
(line 130): every left row paired with each right row of equal doi (or with
missing right values when none matches), then the unmatched right rows with
missing left values. -/
def mergeOuter (E N : DFrame) : DFrame :=
  { cols := E.cols ++ N.cols.map (renameCol E.cols)
  , rows :=
      (E.rows.flatMap (fun e =>
        if (N.rows.filter (fun n => n.doi == e.doi)).isEmpty then
          [⟨e.doi, mergedCells E N e.cells (fun _ => none)⟩]
        else (N.rows.filter (fun n => n.doi == e.doi)).map
          (fun n => ⟨e.doi, mergedCells E N e.cells n.cells⟩))) ++
      ((N.rows.filter (fun n => ¬ E.rows.any (fun e => e.doi == n.doi))).map
        (fun n => ⟨n.doi, mergedCells E N (fun _ => none) n.cells⟩)) }

/-- Test of col.endswith('_new') (line 134). -/
def endsWithNew (s : String) : Bool :=
  s.toList.reverse.take 4 == ['w', 'e', 'n', '_']

/-- Replacement of every occurrence of _new by the empty string in a list of
characters, left to right and non-overlapping as Python str.replace does. -/
def replaceNewAll : List Char → List Char
  | '_' :: 'n' :: 'e' :: 'w' :: rest => replaceNewAll rest
  | c :: rest => c :: replaceNewAll rest
  | [] => []

/-- Evaluation of col.replace('_new', '') (line 135). -/
def stripAllNew (s : String) : String := String.mk (replaceNewAll s.toList)

/-- Column assignment merged_df[col.replace('_new', '')] = merged_df[col] on
one row (line 135). -/
def rowStep (c : String) (r : DRow) : DRow :=
  { r with cells := fun x => if x = stripAllNew c then r.cells c else r.cells x }

/-- Body of the suffix-resolution loop on one row: act only on columns that
end with _new. -/
def rowStepIf (c : String) (r : DRow) : DRow :=
  if endsWithNew c then rowStep c r else r

/-- Body of the suffix-resolution loop (lines 133-136) on the whole frame:
for a column ending with _new, assign the unsuffixed column (creating it at
the end when absent, as pandas does) and drop the suffixed column. -/
def overwriteStep (F : DFrame) (c : String) : DFrame :=
  if endsWithNew c then
    { cols := (if stripAllNew c ∈ F.cols then F.cols
               else F.cols ++ [stripAllNew c]).filter (fun x => x ≠ c)
    , rows := F.rows.map (rowStep c) }
  else F

/-- Suffix-resolution loop: iterate over the snapshot of the merged columns
(the for loop of line 133 iterates the column index taken at entry). -/
def resolveSuffixes (F : DFrame) : DFrame := F.cols.foldl overwriteStep F

/-- Spreadsheet branch of save_results (lines 124-139): outer-merge the
existing frame with the new one on doi, then resolve the _new suffixes. -/
def save_results_merge (E N : DFrame) : DFrame :=
  resolveSuffixes (mergeOuter E N)

/-- Well-behaved column name: it does not end with _new, and appending _new
yields a name that ends with _new and whose replacement of _new by the
empty string gives the name back.  Every name free of the substring _new
satisfies this; the facts are kept in this decidable form because the
suffix-resolution proofs consume exactly them. -/
def cleanCol (c : String) : Prop :=
  endsWithNew c = false ∧ endsWithNew (c ++ "_new") = true ∧
    stripAllNew (c ++ "_new") = c

instance (c : String) : Decidable (cleanCol c) := by
  unfold cleanCol; infer_instance

/-- Shape of a column name of the merged frame when the original column
names are well behaved: either it does not end with _new (an existing
column, or an unshared new column kept unrenamed), or it is a clean name
suffixed with _new whose replacement recovers that name (a shared new
column after renaming). -/
def goodStep (c : String) : Prop :=
  endsWithNew c = false ∨
    ∃ c0, endsWithNew c0 = false ∧ c = c0 ++ "_new" ∧ stripAllNew c = c0

/-! ### Orchestrator: main (lines 174-262) -/

/-- Ingest mode of main (lines 211-250): a run records the new lookup
results, the statistics printed by the summary, the files written by
save_results (no spreadsheet assumed present at the target) and the process
exit status (1 when the summary raises, line 260-262). -/
structure IngestRun where
  new_results : List Record
  table : List Record
  total_combined : Int
  successfully_added : Int
  duplicates_removed : Int
  save : SaveOutcome
  exit_code : Nat

/-- One ingest run (lines 211-250): process the citations file, append the
new results to the existing records, dedup by doi, save, and report the
counts total_combined, successfully_added, duplicates_removed. -/
def ingest_run (lookup : String → Option String) (lines : List (List Char))
    (existing : List Record) : IngestRun :=
  let new := process_citations_file lookup lines
  let unique := remove_duplicate_dois (existing ++ new)
  let so := save_results_outcome unique false
  { new_results := new
  , table := so.csv_written
  , total_combined := (unique.length : Int)
  , successfully_added := (unique.length : Int) - (existing.length : Int)
  , duplicates_removed :=
      ((existing.length : Int) + (new.length : Int)) - (unique.length : Int)
  , save := so
  , exit_code := match so.summary with | Except.error _ => 1 | Except.ok _ => 0 }

/-- Clean mode of main (lines 185-209): dedup the loaded table, write it
back, report the duplicates removed and the remaining count. -/
structure CleanOutcome where
  table : List Record
  duplicates_removed : Int
  remaining : Nat

/-- One clean run (lines 185-209). -/
def clean_mode (existing : List Record) : CleanOutcome :=
  let unique := remove_duplicate_dois existing
  { table := unique
  , duplicates_removed := (existing.length : Int) - (unique.length : Int)
  , remaining := unique.length }

/-! ### Lemmas on the result merger -/

theorem removeDupAux_sublist (seen : List String) (l : List Record) :
    (removeDupAux seen l).Sublist l := by
  induction l generalizing seen with
  | nil => simp [removeDupAux]
  | cons r rs ih =>
    by_cases hmem : r.doi ∈ seen
    · simp only [removeDupAux, if_pos hmem]
      exact (ih seen).cons r
    · simp only [removeDupAux, if_neg hmem]
      exact (ih (r.doi :: seen)).cons₂ r

theorem removeDupAux_doi_not_mem (seen : List String) (l : List Record) :
    ∀ r ∈ removeDupAux seen l, r.doi ∉ seen := by
  induction l generalizing seen with
  | nil => simp [removeDupAux]
  | cons r rs ih =>
    by_cases hmem : r.doi ∈ seen
    · simp only [removeDupAux, if_pos hmem]
      exact ih seen
    · simp only [removeDupAux, if_neg hmem]
      intro x hx
      rcases List.mem_cons.mp hx with h | h
      · subst h; exact hmem
      · have hx2 := ih (r.doi :: seen) x h
        exact fun hs => hx2 (List.mem_cons_of_mem _ hs)

theorem removeDupAux_pairwise (seen : List String) (l : List Record) :
    (removeDupAux seen l).Pairwise (fun a b => a.doi ≠ b.doi) := by
  induction l generalizing seen with
  | nil => simp [removeDupAux]
  | cons r rs ih =>
    by_cases hmem : r.doi ∈ seen
    · simp only [removeDupAux, if_pos hmem]
      exact ih seen
    · simp only [removeDupAux, if_neg hmem]
      refine List.Pairwise.cons ?_ (ih (r.doi :: seen))
      intro b hb
      have h2 := removeDupAux_doi_not_mem (r.doi :: seen) rs b hb
      intro heq
      apply h2
      rw [← heq]
      exact List.mem_cons_self _ _

theorem removeDupAux_find_first (seen : List String) (l : List Record) :
    ∀ r ∈ removeDupAux seen l, l.find? (fun x => x.doi == r.doi) = some r := by
  induction l generalizing seen with
  | nil => simp [removeDupAux]
  | cons r rs ih =>
    by_cases hmem : r.doi ∈ seen
    · simp only [removeDupAux, if_pos hmem]
      intro x hx
      have hne : x.doi ∉ seen := removeDupAux_doi_not_mem seen rs x hx
      have hxr : ¬ (r.doi == x.doi) = true := by
        simp only [beq_iff_eq]
        intro h
        exact hne (h ▸ hmem)
      have hstep : List.find? (fun y => y.doi == x.doi) (r :: rs) =
          List.find? (fun y => y.doi == x.doi) rs :=
        List.find?_cons_of_neg rs hxr
      rw [hstep]
      exact ih seen x hx
    · simp only [removeDupAux, if_neg hmem]
      intro x hx
      rcases List.mem_cons.mp hx with h | h
      · subst h
        exact List.find?_cons_of_pos _ (by simp)
      · have hne : x.doi ∉ r.doi :: seen := removeDupAux_doi_not_mem _ rs x h
        have hxr : ¬ (r.doi == x.doi) = true := by
          simp only [beq_iff_eq]
          intro he
          apply hne
          rw [← he]
          exact List.mem_cons_self _ _
        have hstep : List.find? (fun y => y.doi == x.doi) (r :: rs) =
            List.find? (fun y => y.doi == x.doi) rs :=
          List.find?_cons_of_neg rs hxr
        rw [hstep]
        exact ih (r.doi :: seen) x h

theorem removeDupAux_covers (seen : List String) (l : List Record) :
    ∀ r ∈ l, r.doi ∉ seen →
      ∃ r', r' ∈ removeDupAux seen l ∧ r'.doi = r.doi := by
  induction l generalizing seen with
  | nil => simp
  | cons r rs ih =>
    intro x hx hxs
    by_cases hmem : r.doi ∈ seen
    · simp only [removeDupAux, if_pos hmem]
      rcases List.mem_cons.mp hx with h | h
      · exact absurd hmem (h ▸ hxs)
      · exact ih seen x h hxs
    · simp only [removeDupAux, if_neg hmem]
      rcases List.mem_cons.mp hx with h | h
      · exact ⟨r, List.mem_cons_self _ _, by rw [h]⟩
      · by_cases hdx : x.doi = r.doi
        · exact ⟨r, List.mem_cons_self _ _, hdx.symm⟩
        · have hxs2 : x.doi ∉ r.doi :: seen := by
            intro hc
            rcases List.mem_cons.mp hc with hc | hc
            · exact hdx hc
            · exact hxs hc
          obtain ⟨r', hr1, hr2⟩ := ih (r.doi :: seen) x h hxs2
          exact ⟨r', List.mem_cons_of_mem _ hr1, hr2⟩

theorem removeDupAux_eq_self : ∀ (l : List Record) (seen : List String),
    l.Pairwise (fun a b => a.doi ≠ b.doi) → (∀ r ∈ l, r.doi ∉ seen) →
    removeDupAux seen l = l := by
  intro l
  induction l with
  | nil => intro seen _ _; rfl
  | cons r rs ih =>
    intro seen hp hs
    rcases List.pairwise_cons.mp hp with ⟨hr, hp2⟩
    have hmem : r.doi ∉ seen := hs r (List.mem_cons_self _ _)
    simp only [removeDupAux, if_neg hmem]
    congr 1
    apply ih (r.doi :: seen) hp2
    intro x hx hc
    rcases List.mem_cons.mp hc with hc | hc
    · exact hr x hx hc.symm
    · exact hs x (List.mem_cons_of_mem _ hx) hc

theorem removeDupAux_nil_of_seen : ∀ (l : List Record) (seen : List String),
    (∀ r ∈ l, r.doi ∈ seen) → removeDupAux seen l = [] := by
  intro l
  induction l with
  | nil => intro seen _; rfl
  | cons r rs ih =>
    intro seen hs
    have hmem : r.doi ∈ seen := hs r (List.mem_cons_self _ _)
    simp only [removeDupAux, if_pos hmem]
    exact ih seen (fun x hx => hs x (List.mem_cons_of_mem _ hx))

theorem removeDupAux_append_absorb : ∀ (L : List Record) (seen : List String)
    (M : List Record),
    L.Pairwise (fun a b => a.doi ≠ b.doi) → (∀ r ∈ L, r.doi ∉ seen) →
    (∀ r ∈ M, r.doi ∈ seen ∨ r.doi ∈ L.map (fun x => x.doi)) →
    removeDupAux seen (L ++ M) = L := by
  intro L
  induction L with
  | nil =>
    intro seen M _ _ hM
    simp only [List.nil_append]
    apply removeDupAux_nil_of_seen
    intro x hx
    rcases hM x hx with h | h
    · exact h
    · simp at h
  | cons r rs ih =>
    intro seen M hp hs hM
    rcases List.pairwise_cons.mp hp with ⟨hr, hp2⟩
    have hmem : r.doi ∉ seen := hs r (List.mem_cons_self _ _)
    simp only [List.cons_append, removeDupAux, if_neg hmem]
    congr 1
    apply ih (r.doi :: seen) M hp2
    · intro x hx hc
      rcases List.mem_cons.mp hc with hc | hc
      · exact hr x hx hc.symm
      · exact hs x (List.mem_cons_of_mem _ hx) hc
    · intro x hx
      rcases hM x hx with h | h
      · exact Or.inl (List.mem_cons_of_mem _ h)
      · rcases List.mem_map.mp h with ⟨y, hy, hyd⟩
        rcases List.mem_cons.mp hy with hy | hy
        · refine Or.inl ?_
          rw [← hyd, hy]
          exact List.mem_cons_self _ _
        · exact Or.inr (List.mem_map.mpr ⟨y, hy, hyd⟩)

theorem pairwise_filter_doi_length_le_one : ∀ (l : List Record) (d : String),
    l.Pairwise (fun a b => a.doi ≠ b.doi) →
    (l.filter (fun r => r.doi == d)).length ≤ 1 := by
  intro l
  induction l with
  | nil => intro d _; simp
  | cons r rs ih =>
    intro d hp
    rcases List.pairwise_cons.mp hp with ⟨hr, hp2⟩
    by_cases h : (r.doi == d) = true
    · have hnil : rs.filter (fun x => x.doi == d) = [] := by
        rw [List.filter_eq_nil_iff]
        intro x hx hxd
        have h1 : r.doi = d := beq_iff_eq.mp h
        have h2 : x.doi = d := beq_iff_eq.mp hxd
        exact hr x hx (h1.trans h2.symm)
      rw [List.filter_cons, if_pos h, hnil]
      simp
    · rw [List.filter_cons, if_neg h]
      exact ih d hp2

/-! ### Claim C1 -/

/-- Claim C1: remove_duplicate_dois returns a subsequence of its input in
which no two records share a doi value, and which keeps for each distinct
doi exactly the first-seen record in original relative order: every output
record is the first input record carrying its doi, and every input doi is
represented in the output by that first record. -/
theorem remove_duplicate_dois_spec (l : List Record) :
    (remove_duplicate_dois l).Sublist l ∧
    (remove_duplicate_dois l).Pairwise (fun a b => a.doi ≠ b.doi) ∧
    (∀ r ∈ remove_duplicate_dois l,
      l.find? (fun x => x.doi == r.doi) = some r) ∧
    (∀ r ∈ l, ∃ r', r' ∈ remove_duplicate_dois l ∧
      l.find? (fun x => x.doi == r.doi) = some r') := by
  refine ⟨removeDupAux_sublist [] l, removeDupAux_pairwise [] l,
    removeDupAux_find_first [] l, ?_⟩
  intro r hr
  obtain ⟨r', hr1, hr2⟩ := removeDupAux_covers [] l r hr (by simp)
  refine ⟨r', hr1, ?_⟩
  have hf := removeDupAux_find_first [] l r' hr1
  rw [hr2] at hf
  exact hf

/-- Witness for remove_duplicate_dois_spec: a concrete two-record input with
a shared doi, discharging the membership hypothesis of the last clause. -/
theorem remove_duplicate_dois_spec_witness :
    ∃ r', r' ∈ remove_duplicate_dois
        [Record.mk "a" "10.1/x" "u1", Record.mk "b" "10.1/x" "u2"] ∧
      List.find? (fun x => x.doi == (Record.mk "b" "10.1/x" "u2").doi)
        [Record.mk "a" "10.1/x" "u1", Record.mk "b" "10.1/x" "u2"] = some r' :=
  (remove_duplicate_dois_spec
      [Record.mk "a" "10.1/x" "u1", Record.mk "b" "10.1/x" "u2"]).2.2.2
    (Record.mk "b" "10.1/x" "u2") (by decide)

/-! ### Claim C7 -/

/-- Claim C7: the result merger is idempotent. -/
theorem remove_duplicate_dois_idem (l : List Record) :
    remove_duplicate_dois (remove_duplicate_dois l) = remove_duplicate_dois l :=
  removeDupAux_eq_self (remove_duplicate_dois l) []
    (removeDupAux_pairwise [] l) (fun _ _ => List.not_mem_nil _)

/-! ### Claim C3 -/

/-- Claim C3 counterexample: the negation of the claim.  There is no input
sequence for which the merger keeps two or more records carrying the
sentinel doi: the dedup key is the literal doi field and the sentinel
value collides with itself, so sentinel rows are not exempt. -/
theorem sentinel_not_exempt :
    ¬ ∃ l : List Record,
      2 ≤ ((remove_duplicate_dois l).filter
        (fun r => r.doi == "Not Found")).length := by
  rintro ⟨l, hl⟩
  have hle := pairwise_filter_doi_length_le_one (remove_duplicate_dois l)
    "Not Found" (removeDupAux_pairwise [] l)
  omega

/-- Claim C3 amended: for every input holding at least two sentinel records,
the merger keeps exactly one sentinel record, namely the first-seen one. -/
theorem sentinel_dedup_first (l : List Record)
    (h : 2 ≤ (l.filter (fun r => r.doi == "Not Found")).length) :
    ∃ r0, l.find? (fun r => r.doi == "Not Found") = some r0 ∧
      (remove_duplicate_dois l).filter (fun r => r.doi == "Not Found") = [r0] := by
  have hne : l.filter (fun r => r.doi == "Not Found") ≠ [] := by
    intro hc
    rw [hc] at h
    simp at h
  obtain ⟨s, hs⟩ := List.exists_mem_of_ne_nil _ hne
  have hsl : s ∈ l := (List.mem_filter.mp hs).1
  have hsd : s.doi = "Not Found" := beq_iff_eq.mp (List.mem_filter.mp hs).2
  obtain ⟨r', hr1, hr2⟩ := removeDupAux_covers [] l s hsl (by simp)
  have hrd : r'.doi = "Not Found" := hr2.trans hsd
  have hfind := removeDupAux_find_first [] l r' hr1
  rw [hrd] at hfind
  refine ⟨r', hfind, ?_⟩
  have hmemf : r' ∈ (remove_duplicate_dois l).filter
      (fun r => r.doi == "Not Found") :=
    List.mem_filter.mpr ⟨hr1, by simp [hrd]⟩
  have hle := pairwise_filter_doi_length_le_one (remove_duplicate_dois l)
    "Not Found" (removeDupAux_pairwise [] l)
  rcases hFl : (remove_duplicate_dois l).filter (fun r => r.doi == "Not Found")
    with _ | ⟨a, rest⟩
  · rw [hFl] at hmemf
    simp at hmemf
  · rcases rest with _ | ⟨b, t⟩
    · rw [hFl] at hmemf
      have hra : r' = a := by simpa using hmemf
      rw [hra]
      exact hFl
    · rw [hFl] at hle
      simp only [List.length_cons] at hle
      omega

/-- Witness for sentinel_dedup_first at a concrete input with two sentinel
records. -/
theorem sentinel_dedup_first_witness :
    ∃ r0, List.find? (fun r => r.doi == "Not Found")
        [Record.mk "c1" "Not Found" "", Record.mk "c2" "Not Found" ""] =
          some r0 ∧
      (remove_duplicate_dois
          [Record.mk "c1" "Not Found" "", Record.mk "c2" "Not Found" ""]).filter
        (fun r => r.doi == "Not Found") = [r0] :=
  sentinel_dedup_first
    [Record.mk "c1" "Not Found" "", Record.mk "c2" "Not Found" ""] (by decide)

/-! ### Claim C2 -/

/-- Claim C2 evidence: on a citation whose lookup raises (modelled by the
oracle answering none), find_doi returns the sentinel tuple without
propagating the error, and the record built by process_citations_file for
that citation has doi equal to the sentinel but doi_url equal to
https://doi.org/Not Found rather than the empty string: the truthiness
guard of the doi_url field never fires, the sentinel being a nonempty
string. -/
theorem find_doi_not_found_record :
    find_doi (fun _ => none) "Abate, A. R., 2007, Phys. Rev. E 76, 021306." =
      ("Abate, A. R., 2007, Phys. Rev. E 76, 021306.", "Not Found",
        "CrossRef") ∧
    process_citations_file (fun _ => none)
        [String.toList "1. Abate, A. R., 2007, Phys. Rev. E 76, 021306."] =
      [Record.mk "Abate, A. R., 2007, Phys. Rev. E 76, 021306." "Not Found"
        "https://doi.org/Not Found"] ∧
    (process_citation (fun _ => none) "any failing citation").doi =
      "Not Found" ∧
    (process_citation (fun _ => none) "any failing citation").doi_url =
      "https://doi.org/Not Found" ∧
    (process_citation (fun _ => none) "any failing citation").doi_url ≠ "" := by
  decide

/-! ### Claim C4 -/

/-- Claim C4 counterexample: a batch of two citations starting at clock 0
with the initial finder state (request_delay 1, last_request_time 0) issues
its queries at times 0 and 1/2: the second query is issued only 1/2 second
after the previous one, less than request_delay, and the finder state is
returned untouched, showing no rate_limit step ran inside find_doi. -/
theorem find_doi_no_rate_limit_cex :
    (process_citations_timed (fun _ => none) (FinderState.mk 1 0) 0
        ["a", "b"]).1 = [(0, "a"), (1 / 2, "b")] ∧
    (1 / 2 : ℚ) - 0 < (FinderState.mk 1 0).request_delay ∧
    (process_citations_timed (fun _ => none) (FinderState.mk 1 0) 0
        ["a", "b"]).2.1 = FinderState.mk 1 0 := by
  refine ⟨?_, by norm_num, ?_⟩
  · simp [process_citations_timed, find_doi_timed, find_doi]
  · simp [process_citations_timed, find_doi_timed, find_doi]

/-- Claim C4 amended: find_doi never performs the rate_limit step — the
batch loop issues its queries exactly 1/2 second apart (the inter-citation
sleep being the only pacing) and the finder state, last_request_time
included, comes out of the whole batch unchanged. -/
theorem process_citations_timed_spec (lookup : String → Option String)
    (st : FinderState) (t0 : ℚ) (cs : List String) :
    (process_citations_timed lookup st t0 cs).1 =
      evenlySpaced t0 (1 / 2) cs ∧
    (process_citations_timed lookup st t0 cs).2.1 = st := by
  induction cs generalizing st t0 with
  | nil => exact ⟨rfl, rfl⟩
  | cons c rest ih =>
    cases rest with
    | nil => exact ⟨rfl, rfl⟩
    | cons c2 rest2 =>
      have h1 := (ih st (t0 + 1 / 2)).1
      have h2 := (ih st (t0 + 1 / 2)).2
      constructor
      · simp only [process_citations_timed, find_doi_timed, evenlySpaced]
        rw [h1]
        simp [evenlySpaced]
      · simp only [process_citations_timed, find_doi_timed]
        exact h2

/-! ### Lemmas on the normalizer -/

theorem pySpace_not_alpha (c : Char) (h : pySpace c = true) :
    c.isAlpha = false := by
  have h6 : c = ' ' ∨ c = '\t' ∨ c = '\n' ∨ c = '\r' ∨ c = '\x0b' ∨
      c = '\x0c' := by
    simpa [pySpace, Bool.or_eq_true, decide_eq_true_eq, or_assoc] using h
  rcases h6 with h1 | h1 | h1 | h1 | h1 | h1 <;> subst h1 <;> decide

theorem alpha_not_pySpace (c : Char) (h : c.isAlpha = true) :
    pySpace c = false := by
  cases hs : pySpace c with
  | false => rfl
  | true =>
    rw [pySpace_not_alpha c hs] at h
    simp at h

theorem dropWhile_append_of_all {α : Type} (p : α → Bool) :
    ∀ (A B : List α), (∀ a ∈ A, p a = true) →
    List.dropWhile p (A ++ B) = List.dropWhile p B := by
  intro A
  induction A with
  | nil => intro B _; rfl
  | cons a A ih =>
    intro B h
    have ha : p a = true := h a (List.mem_cons_self _ _)
    simp only [List.cons_append, List.dropWhile_cons, ha, if_true]
    exact ih B (fun x hx => h x (List.mem_cons_of_mem _ hx))

theorem dropToAlpha_eq_none : ∀ (T : List Char),
    (∀ t ∈ T, t.isAlpha = false) → dropToAlpha T = none := by
  intro T
  induction T with
  | nil => intro _; rfl
  | cons t T ih =>
    intro h
    have ht : t.isAlpha = false := h t (List.mem_cons_self _ _)
    simp only [dropToAlpha, ht, Bool.false_eq_true, if_false]
    exact ih (fun x hx => h x (List.mem_cons_of_mem _ hx))

theorem dropToAlpha_append_left : ∀ (P M : List Char),
    (∀ a ∈ P, a.isAlpha = false) → dropToAlpha (P ++ M) = dropToAlpha M := by
  intro P
  induction P with
  | nil => intro M _; rfl
  | cons a P ih =>
    intro M h
    have ha : a.isAlpha = false := h a (List.mem_cons_self _ _)
    simp only [List.cons_append, dropToAlpha, ha, Bool.false_eq_true, if_false]
    exact ih M (fun x hx => h x (List.mem_cons_of_mem _ hx))

theorem dropToAlpha_append_right : ∀ (A T : List Char),
    (∀ t ∈ T, t.isAlpha = false) →
    dropToAlpha (A ++ T) = (dropToAlpha A).map (fun s => s ++ T) := by
  intro A
  induction A with
  | nil =>
    intro T h
    simp only [List.nil_append, dropToAlpha, Option.map_none']
    exact dropToAlpha_eq_none T h
  | cons a A ih =>
    intro T h
    by_cases ha : a.isAlpha = true
    · simp [dropToAlpha, ha]
    · simp only [List.cons_append, dropToAlpha, ha, if_false]
      exact ih T h

theorem dropToAlpha_head_alpha : ∀ (l s : List Char), dropToAlpha l = some s →
    ∃ c cs, s = c :: cs ∧ c.isAlpha = true := by
  intro l
  induction l with
  | nil =>
    intro s h
    exact absurd h (by simp [dropToAlpha])
  | cons a l ih =>
    intro s h
    by_cases ha : a.isAlpha = true
    · simp only [dropToAlpha, ha, if_true, Option.some.injEq] at h
      exact ⟨a, l, h.symm, ha⟩
    · simp only [dropToAlpha, ha, if_false] at h
      exact ih s h

theorem rstrip_append_spaces (A T : List Char)
    (h : ∀ t ∈ T, pySpace t = true) : rstrip (A ++ T) = rstrip A := by
  unfold rstrip
  rw [List.reverse_append]
  rw [dropWhile_append_of_all pySpace T.reverse A.reverse
    (fun x hx => h x (List.mem_reverse.mp hx))]

theorem rstrip_decomposition (M : List Char) :
    M = rstrip M ++ (M.reverse.takeWhile pySpace).reverse := by
  have h1 : M.reverse.takeWhile pySpace ++ M.reverse.dropWhile pySpace =
      M.reverse := List.takeWhile_append_dropWhile pySpace M.reverse
  calc M = M.reverse.reverse := (List.reverse_reverse M).symm
    _ = (M.reverse.takeWhile pySpace ++ M.reverse.dropWhile pySpace).reverse :=
        by rw [h1]
    _ = (M.reverse.dropWhile pySpace).reverse ++
        (M.reverse.takeWhile pySpace).reverse := by rw [List.reverse_append]

theorem lstrip_cons_of_nonspace (c : Char) (cs : List Char)
    (h : pySpace c = false) : lstrip (c :: cs) = c :: cs := by
  simp [lstrip, List.dropWhile_cons, h]

/-- Key commutation: normalizing the stripped line (as the code does, on the
already stripped citation) equals the specification normalizer acting on
the raw line. -/
theorem normalize_strip_comm (l : List Char) :
    normalizeStripped (pyStrip l) = normSpec l := by
  have hPnon : ∀ a ∈ l.takeWhile pySpace, a.isAlpha = false :=
    fun a ha => pySpace_not_alpha a (List.mem_takeWhile_imp ha)
  have hTspace : ∀ t ∈ ((lstrip l).reverse.takeWhile pySpace).reverse,
      pySpace t = true :=
    fun t ht => List.mem_takeWhile_imp (List.mem_reverse.mp ht)
  have hTnon : ∀ t ∈ ((lstrip l).reverse.takeWhile pySpace).reverse,
      t.isAlpha = false := fun t ht => pySpace_not_alpha t (hTspace t ht)
  have hl : l = l.takeWhile pySpace ++ lstrip l :=
    (List.takeWhile_append_dropWhile pySpace l).symm
  have hM : lstrip l =
      pyStrip l ++ ((lstrip l).reverse.takeWhile pySpace).reverse :=
    rstrip_decomposition (lstrip l)
  have hdl : dropToAlpha l = (dropToAlpha (pyStrip l)).map
      (fun s => s ++ ((lstrip l).reverse.takeWhile pySpace).reverse) := by
    conv_lhs => rw [hl]
    rw [dropToAlpha_append_left _ _ hPnon]
    conv_lhs => rw [hM]
    exact dropToAlpha_append_right _ _ hTnon
  cases hS : dropToAlpha (pyStrip l) with
  | none =>
    have hnone : dropToAlpha l = none := by rw [hdl, hS]; rfl
    unfold normalizeStripped normSpec
    rw [hS, hnone]
  | some s =>
    obtain ⟨c, cs, hseq, hca⟩ := dropToAlpha_head_alpha _ s hS
    subst hseq
    have hsome : dropToAlpha l = some ((c :: cs) ++
        ((lstrip l).reverse.takeWhile pySpace).reverse) := by
      rw [hdl, hS]
      rfl
    unfold normalizeStripped normSpec
    rw [hS, hsome]
    have hcns : pySpace c = false := alpha_not_pySpace c hca
    show pyStrip (c :: cs) = pyStrip ((c :: cs) ++ _)
    unfold pyStrip
    rw [lstrip_cons_of_nonspace c cs hcns]
    rw [List.cons_append, lstrip_cons_of_nonspace c _ hcns, ← List.cons_append]
    rw [rstrip_append_spaces (c :: cs) _ hTspace]

theorem readCitations_cons (l : List Char) (ls : List (List Char)) :
    readCitations (l :: ls) =
      (if pyStrip l = [] then [] else [normalizeStripped (pyStrip l)]) ++
        readCitations ls := by
  by_cases hb : pyStrip l = []
  · simp [readCitations, List.filter_cons, hb]
  · simp [readCitations, List.filter_cons, hb]

/-! ### Claim C5 -/

/-- Claim C5: reading the citations file drops blank (whitespace-only)
lines and maps every other raw line to the substring starting at its first
alphabetic character trimmed of surrounding whitespace (the line trimmed
unchanged when it has no alphabetic character) — normSpec is that
specification normalizer on the raw line; in particular the Abate line
followed by a blank line yields exactly the one expected citation. -/
theorem normalizer_spec :
    (∀ lines : List (List Char), readCitations lines =
      lines.filterMap
        (fun l => if pyStrip l = [] then none else some (normSpec l))) ∧
    readCitations
        [String.toList "1. Abate, A. R., 2007, Phys. Rev. E 76, 021306.",
          String.toList ""] =
      [String.toList "Abate, A. R., 2007, Phys. Rev. E 76, 021306."] := by
  constructor
  · intro lines
    induction lines with
    | nil => rfl
    | cons l ls ih =>
      rw [readCitations_cons, ih, List.filterMap_cons]
      by_cases hb : pyStrip l = []
      · simp [hb]
      · simp [hb, normalize_strip_comm l]
  · decide

/-! ### Claim C9 -/

/-- Claim C9: clean mode on a table of exactly three records, two of them
sharing a doi and the third carrying a distinct one, writes back a table of
exactly two records and reports one duplicate removed. -/
theorem clean_mode_three_records (r1 r2 r3 : Record)
    (h : (r1.doi = r2.doi ∧ r1.doi ≠ r3.doi) ∨
         (r1.doi = r3.doi ∧ r1.doi ≠ r2.doi) ∨
         (r2.doi = r3.doi ∧ r1.doi ≠ r2.doi)) :
    (clean_mode [r1, r2, r3]).table.length = 2 ∧
    (clean_mode [r1, r2, r3]).duplicates_removed = 1 := by
  have hlen : (remove_duplicate_dois [r1, r2, r3]).length = 2 := by
    rcases h with ⟨h1, h2⟩ | ⟨h1, h2⟩ | ⟨h1, h2⟩ <;>
      (simp [remove_duplicate_dois, removeDupAux]; split_ifs <;> simp_all)
  constructor
  · simpa [clean_mode] using hlen
  · simp [clean_mode, hlen]

/-! ### Lemmas on the spreadsheet merge -/

theorem suffixed_ne_clean (x y : String) (hx : endsWithNew x = true)
    (hy : endsWithNew y = false) : x ≠ y := by
  intro he
  subst he
  rw [hx] at hy
  exact Bool.noConfusion hy

theorem append_new_inj {s t : String} (h : s ++ "_new" = t ++ "_new") :
    s = t := by
  have hd := congrArg String.data h
  rw [String.data_append, String.data_append] at hd
  exact String.ext (List.append_cancel_right hd)

theorem cellsOf_cons_eq (p : String × Option String)
    (l : List (String × Option String)) (x : String) (h : p.1 = x) :
    cellsOf (p :: l) x = p.2 := by
  unfold cellsOf
  have hstep : List.find? (fun q => q.1 == x) (p :: l) = some p :=
    List.find?_cons_of_pos l (by simp [h])
  rw [hstep]

theorem cellsOf_cons_ne (p : String × Option String)
    (l : List (String × Option String)) (x : String) (h : p.1 ≠ x) :
    cellsOf (p :: l) x = cellsOf l x := by
  unfold cellsOf
  have hstep : List.find? (fun q => q.1 == x) (p :: l) =
      List.find? (fun q => q.1 == x) l :=
    List.find?_cons_of_neg l (by simp [h])
  rw [hstep]

theorem cellsOf_append_skip : ∀ (L1 L2 : List (String × Option String))
    (x : String), (∀ p ∈ L1, p.1 ≠ x) →
    cellsOf (L1 ++ L2) x = cellsOf L2 x := by
  intro L1
  induction L1 with
  | nil => intro L2 x _; rfl
  | cons p L1 ih =>
    intro L2 x h
    rw [List.cons_append,
      cellsOf_cons_ne p (L1 ++ L2) x (h p (List.mem_cons_self _ _))]
    exact ih L2 x (fun q hq => h q (List.mem_cons_of_mem _ hq))

theorem cellsOf_mapped_mem : ∀ (cols : List String)
    (ev : String → Option String) (rest : List (String × Option String))
    (x : String), x ∈ cols →
    cellsOf (cols.map (fun c => (c, ev c)) ++ rest) x = ev x := by
  intro cols
  induction cols with
  | nil => intro ev rest x hx; exact absurd hx (List.not_mem_nil x)
  | cons c cs ih =>
    intro ev rest x hx
    by_cases hcx : c = x
    · subst hcx
      rw [List.map_cons, List.cons_append, cellsOf_cons_eq _ _ _ rfl]
    · rw [List.map_cons, List.cons_append, cellsOf_cons_ne _ _ _ hcx]
      rcases List.mem_cons.mp hx with h | h
      · exact absurd h.symm hcx
      · exact ih ev rest x h

theorem cellsOf_renamed (Ecols : List String) : ∀ (Ncols : List String)
    (nv : String → Option String) (c0 : String), c0 ∈ Ecols → c0 ∈ Ncols →
    cleanCol c0 → (∀ c ∈ Ncols, cleanCol c) →
    cellsOf (Ncols.map (fun c => (renameCol Ecols c, nv c))) (c0 ++ "_new") =
      nv c0 := by
  intro Ncols
  induction Ncols with
  | nil => intro nv c0 _ h _ _; exact absurd h (List.not_mem_nil c0)
  | cons c cs ih =>
    intro nv c0 hc0E hc0N hc0clean hclean
    by_cases hcc0 : c = c0
    · subst hcc0
      rw [List.map_cons]
      have hr : (renameCol Ecols c, nv c).1 = c ++ "_new" := by
        show renameCol Ecols c = c ++ "_new"
        unfold renameCol
        rw [if_pos hc0E]
      rw [cellsOf_cons_eq _ _ _ hr]
    · rw [List.map_cons]
      have hne : (renameCol Ecols c, nv c).1 ≠ c0 ++ "_new" := by
        show renameCol Ecols c ≠ c0 ++ "_new"
        unfold renameCol
        by_cases hcE : c ∈ Ecols
        · rw [if_pos hcE]
          intro he
          exact hcc0 (append_new_inj he)
        · rw [if_neg hcE]
          exact Ne.symm (suffixed_ne_clean (c0 ++ "_new") c hc0clean.2.1
            (hclean c (List.mem_cons_self _ _)).1)
      rw [cellsOf_cons_ne _ _ _ hne]
      have hc0cs : c0 ∈ cs := by
        rcases List.mem_cons.mp hc0N with h | h
        · exact absurd h.symm hcc0
        · exact h
      exact ih nv c0 hc0E hc0cs hc0clean
        (fun x hx => hclean x (List.mem_cons_of_mem _ hx))

theorem rowStepIf_doi (c : String) (r : DRow) : (rowStepIf c r).doi = r.doi := by
  unfold rowStepIf rowStep
  split <;> rfl

theorem foldl_rowStepIf_doi : ∀ (steps : List String) (r : DRow),
    (steps.foldl (fun a c => rowStepIf c a) r).doi = r.doi := by
  intro steps
  induction steps with
  | nil => intro r; rfl
  | cons c cs ih =>
    intro r
    rw [List.foldl_cons, ih (rowStepIf c r), rowStepIf_doi]

theorem rowStepIf_cells_suffixed (c : String) (hgc : goodStep c) (r : DRow)
    (x : String) (hx : endsWithNew x = true) :
    (rowStepIf c r).cells x = r.cells x := by
  unfold rowStepIf
  by_cases hc : endsWithNew c = true
  · rw [if_pos hc]
    rcases hgc with hcl | ⟨c0, hc0, _, hstrip⟩
    · rw [hcl] at hc
      exact Bool.noConfusion hc
    · have hne : x ≠ stripAllNew c := by
        rw [hstrip]
        exact suffixed_ne_clean x c0 hx hc0
      simp [rowStep, hne]
  · rw [if_neg hc]

theorem foldl_rowStepIf_cells_none : ∀ (steps : List String) (r : DRow)
    (x : String), endsWithNew x = false →
    steps.filter (fun c => endsWithNew c && (stripAllNew c == x)) = [] →
    (steps.foldl (fun a c => rowStepIf c a) r).cells x = r.cells x := by
  intro steps
  induction steps with
  | nil => intro r x _ _; rfl
  | cons c cs ih =>
    intro r x hx hfil
    rw [List.filter_cons] at hfil
    by_cases hq : (endsWithNew c && (stripAllNew c == x)) = true
    · rw [if_pos hq] at hfil
      exact absurd hfil (by simp)
    · rw [if_neg hq] at hfil
      rw [List.foldl_cons, ih (rowStepIf c r) x hx hfil]
      unfold rowStepIf
      by_cases hc : endsWithNew c = true
      · rw [if_pos hc]
        have hne : x ≠ stripAllNew c := by
          intro he
          apply hq
          rw [hc, he]
          simp
        simp [rowStep, hne]
      · rw [if_neg hc]

theorem foldl_rowStepIf_cells_last : ∀ (steps : List String) (r : DRow)
    (x : String) (c2 : String), (∀ c ∈ steps, goodStep c) →
    endsWithNew x = false →
    (steps.filter
      (fun c => endsWithNew c && (stripAllNew c == x))).getLast? = some c2 →
    (steps.foldl (fun a c => rowStepIf c a) r).cells x = r.cells c2 := by
  intro steps
  induction steps with
  | nil =>
    intro r x c2 _ _ hlast
    exact absurd hlast (by simp)
  | cons c cs ih =>
    intro r x c2 hgood hx hlast
    have hgc : goodStep c := hgood c (List.mem_cons_self _ _)
    have hgood2 : ∀ d ∈ cs, goodStep d :=
      fun d hd => hgood d (List.mem_cons_of_mem _ hd)
    rw [List.foldl_cons]
    rw [List.filter_cons] at hlast
    by_cases hq : (endsWithNew c && (stripAllNew c == x)) = true
    · rw [if_pos hq, List.getLast?_cons] at hlast
      have hget : ((cs.filter
          (fun d => endsWithNew d && (stripAllNew d == x))).getLast?).getD c =
          c2 := by
        exact Option.some.inj hlast
      cases hl2 : (cs.filter
          (fun d => endsWithNew d && (stripAllNew d == x))).getLast? with
      | some c3 =>
        rw [hl2] at hget
        simp only [Option.getD_some] at hget
        rw [ih (rowStepIf c r) x c3 hgood2 hx hl2]
        rw [rowStepIf_cells_suffixed c hgc r c3 ?hsuf]
        · rw [hget]
        case hsuf =>
          have hc3mem := List.mem_of_mem_getLast? hl2
          have hc3q := (List.mem_filter.mp hc3mem).2
          rw [Bool.and_eq_true] at hc3q
          exact hc3q.1
      | none =>
        rw [hl2] at hget
        simp only [Option.getD_none] at hget
        have hnil : cs.filter
            (fun d => endsWithNew d && (stripAllNew d == x)) = [] :=
          List.getLast?_eq_none_iff.mp hl2
        rw [foldl_rowStepIf_cells_none cs (rowStepIf c r) x hx hnil]
        rw [Bool.and_eq_true] at hq
        have hsx : stripAllNew c = x := beq_iff_eq.mp hq.2
        unfold rowStepIf
        rw [if_pos hq.1, ← hget]
        simp [rowStep, hsx]
    · rw [if_neg hq] at hlast
      rw [ih (rowStepIf c r) x c2 hgood2 hx hlast]
      have hc2mem := List.mem_of_mem_getLast? hlast
      have hc2q := (List.mem_filter.mp hc2mem).2
      rw [Bool.and_eq_true] at hc2q
      rw [rowStepIf_cells_suffixed c hgc r c2 hc2q.1]

theorem foldl_overwriteStep_rows : ∀ (steps : List String) (F : DFrame),
    (steps.foldl overwriteStep F).rows =
      F.rows.map (fun r => steps.foldl (fun a c => rowStepIf c a) r) := by
  intro steps
  induction steps with
  | nil => intro F; simp
  | cons c cs ih =>
    intro F
    rw [List.foldl_cons, ih (overwriteStep F c)]
    by_cases hc : endsWithNew c = true
    · have hrows : (overwriteStep F c).rows = F.rows.map (rowStep c) := by
        unfold overwriteStep
        rw [if_pos hc]
      rw [hrows, List.map_map]
      simp only [List.foldl_cons]
      apply List.map_congr_left
      intro a _
      simp [Function.comp, rowStepIf, hc]
    · have hF : overwriteStep F c = F := by
        unfold overwriteStep
        rw [if_neg hc]
      rw [hF]
      simp only [List.foldl_cons]
      apply List.map_congr_left
      intro a _
      simp [rowStepIf, hc]

theorem foldl_overwriteStep_cols_mem : ∀ (steps : List String) (F : DFrame)
    (x : String), x ∈ F.cols → endsWithNew x = false →
    x ∈ (steps.foldl overwriteStep F).cols := by
  intro steps
  induction steps with
  | nil => intro F x hx _; exact hx
  | cons c cs ih =>
    intro F x hx hxc
    rw [List.foldl_cons]
    refine ih (overwriteStep F c) x ?_ hxc
    unfold overwriteStep
    by_cases hc : endsWithNew c = true
    · rw [if_pos hc]
      show x ∈ (if stripAllNew c ∈ F.cols then F.cols
        else F.cols ++ [stripAllNew c]).filter (fun y => y ≠ c)
      apply List.mem_filter.mpr
      constructor
      · by_cases ht : stripAllNew c ∈ F.cols
        · rw [if_pos ht]
          exact hx
        · rw [if_neg ht]
          exact List.mem_append_left _ hx
      · have hne : x ≠ c := Ne.symm (suffixed_ne_clean c x hc hxc)
        simp [hne]
    · rw [if_neg hc]
      exact hx

theorem pairRow_mem (E N : DFrame) (e n : DRow) (he : e ∈ E.rows)
    (hn : n ∈ N.rows) (hdoi : n.doi = e.doi) :
    DRow.mk e.doi (mergedCells E N e.cells n.cells) ∈ (mergeOuter E N).rows := by
  unfold mergeOuter
  apply List.mem_append_left
  apply List.mem_flatMap.mpr
  refine ⟨e, he, ?_⟩
  have hnm : n ∈ N.rows.filter (fun m => m.doi == e.doi) :=
    List.mem_filter.mpr ⟨hn, by simp [hdoi]⟩
  have hne : (N.rows.filter (fun m => m.doi == e.doi)).isEmpty = false :=
    List.isEmpty_eq_false.mpr (List.ne_nil_of_mem hnm)
  rw [if_neg (by simp [hne])]
  exact List.mem_map_of_mem _ hnm

/-! ### Claim C6 -/

/-- Claim C6: when a spreadsheet already exists, the save_results merge
(outer join on doi followed by the _new suffix resolution) keeps every
column of the existing frame in the written frame, and for every existing
row whose doi matches a new row the written frame holds a row with that doi
whose value at each column present only in the existing file is the
existing row's original value, and whose value at each column shared by
both frames is the new row's value.  Column names are assumed not to
interact with the _new suffix machinery (cleanCol). -/
theorem save_results_merge_spec (E N : DFrame)
    (hE : ∀ c ∈ E.cols, cleanCol c) (hN : ∀ c ∈ N.cols, cleanCol c)
    (e n : DRow) (he : e ∈ E.rows) (hn : n ∈ N.rows) (hdoi : n.doi = e.doi) :
    (∀ c ∈ E.cols, c ∈ (save_results_merge E N).cols) ∧
    ∃ r, r ∈ (save_results_merge E N).rows ∧ r.doi = e.doi ∧
      (∀ c ∈ E.cols, c ∉ N.cols → r.cells c = e.cells c) ∧
      (∀ c ∈ N.cols, c ∈ E.cols → r.cells c = n.cells c) := by
  have hcols : (mergeOuter E N).cols = E.cols ++ N.cols.map (renameCol E.cols) :=
    rfl
  have hgood : ∀ c ∈ (mergeOuter E N).cols, goodStep c := by
    rw [hcols]
    intro c hc
    rcases List.mem_append.mp hc with h | h
    · exact Or.inl (hE c h).1
    · rcases List.mem_map.mp h with ⟨c0, hc0, hr⟩
      unfold renameCol at hr
      by_cases hc0E : c0 ∈ E.cols
      · rw [if_pos hc0E] at hr
        refine Or.inr ⟨c0, (hN c0 hc0).1, hr.symm, ?_⟩
        rw [← hr]
        exact (hN c0 hc0).2.2
      · rw [if_neg hc0E] at hr
        exact Or.inl (hr ▸ (hN c0 hc0).1)
  constructor
  · intro c hc
    show c ∈ ((mergeOuter E N).cols.foldl overwriteStep (mergeOuter E N)).cols
    refine foldl_overwriteStep_cols_mem (mergeOuter E N).cols (mergeOuter E N)
      c ?_ (hE c hc).1
    rw [hcols]
    exact List.mem_append_left _ hc
  · refine ⟨(mergeOuter E N).cols.foldl (fun a c => rowStepIf c a)
      (DRow.mk e.doi (mergedCells E N e.cells n.cells)), ?_, ?_, ?_, ?_⟩
    · show _ ∈ ((mergeOuter E N).cols.foldl overwriteStep (mergeOuter E N)).rows
      rw [foldl_overwriteStep_rows]
      exact List.mem_map_of_mem _ (pairRow_mem E N e n he hn hdoi)
    · rw [foldl_rowStepIf_doi]
    · intro c hcE hcN
      have hfil : (mergeOuter E N).cols.filter
          (fun d => endsWithNew d && (stripAllNew d == c)) = [] := by
        rw [List.filter_eq_nil_iff]
        intro d hd hq
        rw [Bool.and_eq_true] at hq
        rcases List.mem_append.mp (hcols ▸ hd) with h | h
        · rw [(hE d h).1] at hq
          exact Bool.noConfusion hq.1
        · rcases List.mem_map.mp h with ⟨c0, hc0, hr⟩
          unfold renameCol at hr
          by_cases hc0E : c0 ∈ E.cols
          · rw [if_pos hc0E] at hr
            have hsd : stripAllNew d = c0 := by
              rw [← hr]
              exact (hN c0 hc0).2.2
            have hc0c : c0 = c := by
              rw [← hsd]
              exact beq_iff_eq.mp hq.2
            exact hcN (hc0c ▸ hc0)
          · rw [if_neg hc0E] at hr
            rw [← hr, (hN c0 hc0).1] at hq
            exact Bool.noConfusion hq.1
      rw [foldl_rowStepIf_cells_none (mergeOuter E N).cols _ c (hE c hcE).1 hfil]
      show mergedCells E N e.cells n.cells c = e.cells c
      unfold mergedCells
      exact cellsOf_mapped_mem E.cols e.cells _ c hcE
    · intro c hcN hcE
      have hlast : ((mergeOuter E N).cols.filter
          (fun d => endsWithNew d && (stripAllNew d == c))).getLast? =
          some (c ++ "_new") := by
        have hmemf : (c ++ "_new") ∈ (mergeOuter E N).cols.filter
            (fun d => endsWithNew d && (stripAllNew d == c)) := by
          apply List.mem_filter.mpr
          constructor
          · rw [hcols]
            apply List.mem_append_right
            apply List.mem_map.mpr
            refine ⟨c, hcN, ?_⟩
            unfold renameCol
            rw [if_pos hcE]
          · rw [Bool.and_eq_true]
            exact ⟨(hN c hcN).2.1, beq_iff_eq.mpr (hN c hcN).2.2⟩
        have hall : ∀ d ∈ (mergeOuter E N).cols.filter
            (fun d => endsWithNew d && (stripAllNew d == c)),
            d = c ++ "_new" := by
          intro d hd
          have hdq := (List.mem_filter.mp hd).2
          rw [Bool.and_eq_true] at hdq
          have hdm := (List.mem_filter.mp hd).1
          rcases List.mem_append.mp (hcols ▸ hdm) with h | h
          · rw [(hE d h).1] at hdq
            exact absurd hdq.1 (by simp)
          · rcases List.mem_map.mp h with ⟨c0, hc0, hr⟩
            unfold renameCol at hr
            by_cases hc0E : c0 ∈ E.cols
            · rw [if_pos hc0E] at hr
              have hsd : stripAllNew d = c0 := by
                rw [← hr]
                exact (hN c0 hc0).2.2
              have hc0c : c0 = c := by
                rw [← hsd]
                exact beq_iff_eq.mp hdq.2
              rw [← hr, hc0c]
            · rw [if_neg hc0E] at hr
              rw [← hr, (hN c0 hc0).1] at hdq
              exact absurd hdq.1 (by simp)
        cases hl : ((mergeOuter E N).cols.filter
            (fun d => endsWithNew d && (stripAllNew d == c))).getLast? with
        | none =>
          exact absurd (List.getLast?_eq_none_iff.mp hl)
            (List.ne_nil_of_mem hmemf)
        | some d =>
          rw [hall d (List.mem_of_mem_getLast? hl)]
      rw [foldl_rowStepIf_cells_last (mergeOuter E N).cols _ c (c ++ "_new")
        hgood (hE c hcE).1 hlast]
      show mergedCells E N e.cells n.cells (c ++ "_new") = n.cells c
      unfold mergedCells
      have hskip : ∀ p ∈ E.cols.map (fun d => (d, e.cells d)),
          p.1 ≠ c ++ "_new" := by
        intro p hp
        rcases List.mem_map.mp hp with ⟨c0, hc0, hpe⟩
        rw [← hpe]
        exact Ne.symm
          (suffixed_ne_clean (c ++ "_new") c0 (hN c hcN).2.1 (hE c0 hc0).1)
      rw [cellsOf_append_skip _ _ _ hskip]
      exact cellsOf_renamed E.cols N.cols n.cells c hcE hcN (hN c hcN) hN

/-- Witness for save_results_merge_spec: an existing frame carrying an
extra notes column and a new frame sharing the citation and doi_url
columns, joined on a common doi. -/
theorem save_results_merge_spec_witness :
    (∀ c ∈ (DFrame.mk ["citation", "doi_url", "notes"]
        [DRow.mk "10.1/a" (cellsOf [("citation", some "old cite"),
          ("doi_url", some "u0"), ("notes", some "keep me")])]).cols,
      c ∈ (save_results_merge
        (DFrame.mk ["citation", "doi_url", "notes"]
          [DRow.mk "10.1/a" (cellsOf [("citation", some "old cite"),
            ("doi_url", some "u0"), ("notes", some "keep me")])])
        (DFrame.mk ["citation", "doi_url"]
          [DRow.mk "10.1/a" (cellsOf [("citation", some "new cite"),
            ("doi_url", some "u1")])])).cols) ∧
    ∃ r, r ∈ (save_results_merge
        (DFrame.mk ["citation", "doi_url", "notes"]
          [DRow.mk "10.1/a" (cellsOf [("citation", some "old cite"),
            ("doi_url", some "u0"), ("notes", some "keep me")])])
        (DFrame.mk ["citation", "doi_url"]
          [DRow.mk "10.1/a" (cellsOf [("citation", some "new cite"),
            ("doi_url", some "u1")])])).rows ∧
      r.doi = (DRow.mk "10.1/a" (cellsOf [("citation", some "old cite"),
        ("doi_url", some "u0"), ("notes", some "keep me")])).doi ∧
      (∀ c ∈ (["citation", "doi_url", "notes"] : List String),
        c ∉ (["citation", "doi_url"] : List String) →
        r.cells c = (DRow.mk "10.1/a" (cellsOf [("citation", some "old cite"),
          ("doi_url", some "u0"), ("notes", some "keep me")])).cells c) ∧
      (∀ c ∈ (["citation", "doi_url"] : List String),
        c ∈ (["citation", "doi_url", "notes"] : List String) →
        r.cells c = (DRow.mk "10.1/a" (cellsOf [("citation", some "new cite"),
          ("doi_url", some "u1")])).cells c) :=
  save_results_merge_spec
    (DFrame.mk ["citation", "doi_url", "notes"]
      [DRow.mk "10.1/a" (cellsOf [("citation", some "old cite"),
        ("doi_url", some "u0"), ("notes", some "keep me")])])
    (DFrame.mk ["citation", "doi_url"]
      [DRow.mk "10.1/a" (cellsOf [("citation", some "new cite"),
        ("doi_url", some "u1")])])
    (by decide) (by decide)
    (DRow.mk "10.1/a" (cellsOf [("citation", some "old cite"),
      ("doi_url", some "u0"), ("notes", some "keep me")]))
    (DRow.mk "10.1/a" (cellsOf [("citation", some "new cite"),
      ("doi_url", some "u1")]))
    (List.mem_singleton.mpr rfl) (List.mem_singleton.mpr rfl) rfl

/-! ### Claim C8 -/

/-- Claim C8 counterexample: with a lookup that fails on every citation, a
two-citation input produces two sentinel records sharing the doi value Not
Found; the first ingest run (from an empty table) reports one citation
successfully added, while the second run over the written table reports two
duplicates not added — the counts differ. -/
theorem ingest_twice_counts_cex :
    (ingest_run (fun _ => none)
        [String.toList "cite one", String.toList "cite two"]
        (ingest_run (fun _ => none)
          [String.toList "cite one", String.toList "cite two"]
          []).table).duplicates_removed = 2 ∧
    (ingest_run (fun _ => none)
        [String.toList "cite one", String.toList "cite two"]
        []).successfully_added = 1 ∧
    (ingest_run (fun _ => none)
        [String.toList "cite one", String.toList "cite two"]
        (ingest_run (fun _ => none)
          [String.toList "cite one", String.toList "cite two"]
          []).table).duplicates_removed ≠
      (ingest_run (fun _ => none)
        [String.toList "cite one", String.toList "cite two"]
        []).successfully_added := by
  decide

/-- Claim C8 amended: when the records entering the first run (existing
table plus the deterministic lookup results) carry pairwise distinct doi
values, the second run's duplicates-not-added count equals the first run's
successfully-added count. -/
theorem ingest_twice_counts (lookup : String → Option String)
    (lines : List (List Char)) (existing : List Record)
    (h : ((existing ++ process_citations_file lookup lines).map
      (fun r => r.doi)).Nodup) :
    (ingest_run lookup lines
        (ingest_run lookup lines existing).table).duplicates_removed =
      (ingest_run lookup lines existing).successfully_added := by
  have hp : (existing ++ process_citations_file lookup lines).Pairwise
      (fun a b => a.doi ≠ b.doi) := List.pairwise_map.mp h
  have h1 : remove_duplicate_dois
      (existing ++ process_citations_file lookup lines) =
      existing ++ process_citations_file lookup lines :=
    removeDupAux_eq_self _ [] hp (fun _ _ => List.not_mem_nil _)
  have hp2 : (((existing ++ process_citations_file lookup lines).map
      sanitizeRecord)).Pairwise (fun a b => a.doi ≠ b.doi) :=
    List.pairwise_map.mpr hp
  have h2 : remove_duplicate_dois
      ((existing ++ process_citations_file lookup lines).map sanitizeRecord ++
        process_citations_file lookup lines) =
      (existing ++ process_citations_file lookup lines).map sanitizeRecord := by
    apply removeDupAux_append_absorb _ _ _ hp2 (fun _ _ => List.not_mem_nil _)
    intro r hr
    refine Or.inr ?_
    exact List.mem_map.mpr ⟨sanitizeRecord r,
      List.mem_map_of_mem sanitizeRecord (List.mem_append_right existing hr),
      rfl⟩
  simp only [ingest_run, save_results_outcome, h1, h2]
  simp only [List.length_map, List.length_append]
  omega

/-- Witness for ingest_twice_counts: a deterministic lookup sending each
citation to itself as doi, two distinct citations, empty prior table. -/
theorem ingest_twice_counts_witness :
    (ingest_run (fun c => some c) [String.toList "aa", String.toList "bb"]
        (ingest_run (fun c => some c) [String.toList "aa", String.toList "bb"]
          []).table).duplicates_removed =
      (ingest_run (fun c => some c) [String.toList "aa", String.toList "bb"]
        []).successfully_added :=
  ingest_twice_counts (fun c => some c)
    [String.toList "aa", String.toList "bb"] [] (by decide)

/-! ### Claim C10 -/

theorem readCitations_eq_nil : ∀ (lines : List (List Char)),
    (∀ l ∈ lines, pyStrip l = []) → readCitations lines = [] := by
  intro lines
  induction lines with
  | nil => intro _; rfl
  | cons l ls ih =>
    intro h
    rw [readCitations_cons, ih (fun x hx => h x (List.mem_cons_of_mem _ hx))]
    simp [h l (List.mem_cons_self _ _)]

/-- Claim C10: save_results invoked with an empty record list and
check_duplicates false evaluates found_count over the zero length of the
list and raises ZeroDivisionError; consequently an ingest run whose input
file holds only blank lines, with no prior table, terminates with exit
status 1 after writing the empty output files instead of reporting a
summary. -/
theorem empty_ingest_divzero (lookup : String → Option String)
    (lines : List (List Char)) (h : ∀ l ∈ lines, pyStrip l = []) :
    (save_results_outcome [] false).summary = Except.error () ∧
    success_rate [] = Except.error () ∧
    (ingest_run lookup lines []).exit_code = 1 ∧
    (ingest_run lookup lines []).save.csv_written = [] ∧
    (ingest_run lookup lines []).save.excel_written = [] := by
  have hrc : readCitations lines = [] := readCitations_eq_nil lines h
  have hnew : process_citations_file lookup lines = [] := by
    simp [process_citations_file, hrc]
  refine ⟨?_, ?_, ?_, ?_, ?_⟩ <;>
    simp [ingest_run, hnew, remove_duplicate_dois, removeDupAux,
      save_results_outcome, success_rate, pyDiv, found_count, Except.map]

/-- Witness for empty_ingest_divzero: a file of one whitespace-only line
and one empty line. -/
theorem empty_ingest_divzero_witness :
    (save_results_outcome [] false).summary = Except.error () ∧
    success_rate [] = Except.error () ∧
    (ingest_run (fun _ => none) [[' '], []] []).exit_code = 1 ∧
    (ingest_run (fun _ => none) [[' '], []] []).save.csv_written = [] ∧
    (ingest_run (fun _ => none) [[' '], []] []).save.excel_written = [] :=
  empty_ingest_divzero (fun _ => none) [[' '], []] (by decide)

/-- Witness for clean_mode_three_records at a concrete three-record table. -/
theorem clean_mode_three_records_witness :
    (clean_mode [Record.mk "a" "10.1/d1" "", Record.mk "b" "10.1/d1" "",
      Record.mk "c" "10.1/d2" ""]).table.length = 2 ∧
    (clean_mode [Record.mk "a" "10.1/d1" "", Record.mk "b" "10.1/d1" "",
      Record.mk "c" "10.1/d2" ""]).duplicates_removed = 1 :=
  clean_mode_three_records (Record.mk "a" "10.1/d1" "")
    (Record.mk "b" "10.1/d1" "") (Record.mk "c" "10.1/d2" "") (by decide)

end DoiFinder
